import Mathlib

/-!
Verification of the NewSync lyrics synchronization engine
(src/modules/lyrics/lyricsRenderer.js).

Time values are modelled as rationals.  The timing corrector
(_retimingActiveTimings) works in seconds, so the source literals
0.005 (5ms), 0.5 (500ms) and 0.001 (1ms) appear as 5/1000, 1/2 and
1/1000.  The per-tick scheduler works in milliseconds.
-/

namespace NewSync

/-! ## TimingCorrector (_retimingActiveTimings)

A line element is modelled by its immutable fields read by the pass:
dataset.startTime, dataset.endTime (the original end), and whether the
DOM sibling that follows it is a manual gap marker
(nextElementSibling.classList.contains with the lyrics-gap class). -/

structure LineT where
  startTime : ℚ
  originalEndTime : ℚ
  followedByManualGap : Bool
deriving DecidableEq, Repr

/-- Left-to-right precursor pass of _retimingActiveTimings.  For each
triple (A,B,C) at positions i, i+1, i+2, when B starts before the
original end of A, C starts before the original end of B, and C starts
at or after the original end of A, line A gets newEndTime = C.startTime
and isHandledByPrecursorPass = true.  The pass only reads original
(immutable) fields, so it is encoded positionally: each line is paired
with `some e` when the pass handled it (assigning new end `e`), with
`none` otherwise. -/
def markPrecursor : List LineT → List (LineT × Option ℚ)
  | a :: b :: c :: rest =>
      (a,
        if b.startTime < a.originalEndTime ∧ c.startTime < b.originalEndTime ∧
            a.originalEndTime ≤ c.startTime
        then some c.startTime else none) :: markPrecursor (b :: c :: rest)
  | l => l.map (fun x => (x, none))

/-- Right-to-left trailing pass of _retimingActiveTimings, evaluated as a
fold from the right: the loop runs i from length-2 down to 0, so the
entry at i+1 already holds its final newEndTime when entry i is
processed.  Lines handled by the precursor pass are skipped (they keep
the precursor-assigned end); the rightmost line is never visited by the
loop and keeps its precursor-or-original end. -/
def trailing : List (LineT × Option ℚ) → List ℚ
  | [] => []
  | [x] => [x.2.getD x.1.originalEndTime]
  | x :: y :: rest =>
      let tail := trailing (y :: rest)
      let cur :=
        match x.2 with
        | some e => e
        | none =>
            if y.1.startTime < x.1.originalEndTime then
              if 5/1000 ≤ x.1.originalEndTime - y.1.startTime then tail.headD 0
              else x.1.originalEndTime
            else
              if 0 < y.1.startTime - x.1.originalEndTime ∧
                  x.1.followedByManualGap = false then
                x.1.originalEndTime + min (1/2 : ℚ) (y.1.startTime - x.1.originalEndTime)
              else x.1.originalEndTime
      cur :: tail

/-- Corrected end times computed by _retimingActiveTimings: the
newEndTime of every line after both passes.  Inputs with fewer than two
lines return immediately, leaving every end at its original value. -/
def retimingNewEnds (lines : List LineT) : List ℚ :=
  if lines.length < 2 then lines.map (fun l => l.originalEndTime)
  else trailing (markPrecursor lines)

/-- Final dataset write-back of _retimingActiveTimings: dataset.endTime
is overwritten only when the corrected end differs from the original end
by more than 0.001 (1ms); otherwise the element keeps its original end. -/
def retimingWrittenEnds (lines : List LineT) : List ℚ :=
  (lines.zip (retimingNewEnds lines)).map
    (fun p => if |p.2 - p.1.originalEndTime| > 1/1000 then p.2 else p.1.originalEndTime)

/-- The precursor-pass condition for the triple at position i, read off
the immutable original fields of the input list. -/
def precursorHit (lines : List LineT) (i : ℕ) : Prop :=
  ∃ a b c, lines[i]? = some a ∧ lines[i+1]? = some b ∧ lines[i+2]? = some c ∧
    b.startTime < a.originalEndTime ∧ c.startTime < b.originalEndTime ∧
    a.originalEndTime ≤ c.startTime

theorem markPrecursor_length (l : List LineT) :
    (markPrecursor l).length = l.length := by
  induction l with
  | nil => rfl
  | cons a t ih =>
      match t with
      | [] => rfl
      | [b] => rfl
      | b :: c :: rest =>
          simpa [markPrecursor] using ih

theorem trailing_length (l : List (LineT × Option ℚ)) :
    (trailing l).length = l.length := by
  induction l with
  | nil => rfl
  | cons x t ih =>
      match t with
      | [] => rfl
      | y :: rest =>
          simpa [trailing] using ih

/-- The flag the precursor pass attaches to the first line of a list,
as a function of the two following lines. -/
def precursorFlag (a : LineT) : List LineT → Option ℚ
  | b :: c :: _ =>
      if b.startTime < a.originalEndTime ∧ c.startTime < b.originalEndTime ∧
          a.originalEndTime ≤ c.startTime
      then some c.startTime else none
  | _ => none

theorem markPrecursor_cons (a : LineT) (t : List LineT) :
    markPrecursor (a :: t) = (a, precursorFlag a t) :: markPrecursor t := by
  match t with
  | [] => rfl
  | [b] => rfl
  | b :: c :: rest => rfl

/-- The final newEndTime the trailing pass produces for the first entry
of a list, as a function of the remaining entries. -/
def trailingCur (x : LineT × Option ℚ) : List (LineT × Option ℚ) → ℚ
  | [] => x.2.getD x.1.originalEndTime
  | y :: rest =>
      match x.2 with
      | some e => e
      | none =>
          if y.1.startTime < x.1.originalEndTime then
            if 5/1000 ≤ x.1.originalEndTime - y.1.startTime then
              (trailing (y :: rest)).headD 0
            else x.1.originalEndTime
          else
            if 0 < y.1.startTime - x.1.originalEndTime ∧
                x.1.followedByManualGap = false then
              x.1.originalEndTime + min (1/2 : ℚ) (y.1.startTime - x.1.originalEndTime)
            else x.1.originalEndTime

theorem trailing_cons (x : LineT × Option ℚ) (t : List (LineT × Option ℚ)) :
    trailing (x :: t) = trailingCur x t :: trailing t := by
  match t with
  | [] => rfl
  | y :: rest => rfl

theorem markPrecursor_drop (n : ℕ) (l : List LineT) :
    (markPrecursor l).drop n = markPrecursor (l.drop n) := by
  induction n generalizing l with
  | zero => simp
  | succ n ih =>
      match l with
      | [] => rfl
      | a :: t =>
          rw [List.drop_succ_cons, ← ih t, markPrecursor_cons, List.drop_succ_cons]

theorem trailing_drop (n : ℕ) (l : List (LineT × Option ℚ)) :
    (trailing l).drop n = trailing (l.drop n) := by
  induction n generalizing l with
  | zero => simp
  | succ n ih =>
      match l with
      | [] => rfl
      | x :: t =>
          rw [List.drop_succ_cons, ← ih t, trailing_cons, List.drop_succ_cons]

theorem drop_cons_of_getElem (l : List LineT) (i : ℕ) (a : LineT)
    (ha : l[i]? = some a) : l.drop i = a :: l.drop (i+1) := by
  obtain ⟨h, rfl⟩ := List.getElem?_eq_some.1 ha
  exact List.drop_eq_getElem_cons h

theorem drop_cons2_of_getElem (l : List LineT) (i : ℕ) (a b : LineT)
    (ha : l[i]? = some a) (hb : l[i+1]? = some b) :
    l.drop i = a :: b :: l.drop (i+2) := by
  rw [drop_cons_of_getElem l i a ha, drop_cons_of_getElem l (i+1) b hb]

theorem drop_cons3_of_getElem (l : List LineT) (i : ℕ) (a b c : LineT)
    (ha : l[i]? = some a) (hb : l[i+1]? = some b) (hc : l[i+2]? = some c) :
    l.drop i = a :: b :: c :: l.drop (i+3) := by
  rw [drop_cons2_of_getElem l i a b ha hb, drop_cons_of_getElem l (i+2) c hc]

theorem retimingNewEnds_getElem (lines : List LineT) (i : ℕ)
    (h2 : ¬ lines.length < 2) :
    (retimingNewEnds lines)[i]? =
      (trailing (markPrecursor (lines.drop i))).head? := by
  rw [retimingNewEnds, if_neg h2, ← List.head?_drop, trailing_drop,
    markPrecursor_drop]

/-- Claim C2: in the left-to-right precursor pass, for every consecutive
triple (A,B,C) with B starting before the original end of A, C starting
before the original end of B, and C starting at or after the original
end of A, line A is marked handled with corrected end C.startTime, and
since the trailing pass skips handled lines, the final corrected end of
A equals C.startTime. -/
theorem precursor_pass_clips_to_third_line (lines : List LineT) (i : ℕ)
    (a b c : LineT)
    (ha : lines[i]? = some a) (hb : lines[i+1]? = some b)
    (hc : lines[i+2]? = some c)
    (h1 : b.startTime < a.originalEndTime)
    (h2 : c.startTime < b.originalEndTime)
    (h3 : a.originalEndTime ≤ c.startTime) :
    (markPrecursor lines)[i]? = some (a, some c.startTime) ∧
    (retimingNewEnds lines)[i]? = some c.startTime := by
  have hlen : i + 2 < lines.length := (List.getElem?_eq_some.1 hc).1
  have hdrop : lines.drop i = a :: b :: c :: lines.drop (i+3) :=
    drop_cons3_of_getElem lines i a b c ha hb hc
  constructor
  · rw [← List.head?_drop, markPrecursor_drop, hdrop, markPrecursor_cons]
    simp [precursorFlag, h1, h2, h3]
  · rw [retimingNewEnds_getElem lines i (by omega), hdrop, markPrecursor_cons,
      markPrecursor_cons, trailing_cons]
    simp [precursorFlag, h1, h2, h3, trailingCur]

/-- Witness for precursor_pass_clips_to_third_line at a concrete
three-line input: lines [0,2), [1,3), [2,4) in seconds; the middle line
mediates, so line 0 ends exactly at the start of line 2. -/
theorem precursor_pass_clips_to_third_line_witness :
    (retimingNewEnds
      [⟨0, 2, false⟩, ⟨1, 3, false⟩, ⟨2, 4, false⟩])[0]? = some 2 :=
  (precursor_pass_clips_to_third_line
    [⟨0, 2, false⟩, ⟨1, 3, false⟩, ⟨2, 4, false⟩] 0
    ⟨0, 2, false⟩ ⟨1, 3, false⟩ ⟨2, 4, false⟩
    rfl rfl rfl (by norm_num) (by norm_num) (by norm_num)).2

theorem precursorFlag_eq_none (lines : List LineT) (i : ℕ) (cur : LineT)
    (ha : lines[i]? = some cur) (hnp : ¬ precursorHit lines i) :
    precursorFlag cur (lines.drop (i+1)) = none := by
  cases hd : lines.drop (i+1) with
  | nil => rfl
  | cons b t =>
      cases t with
      | nil => rfl
      | cons c rest =>
          have hb : lines[i+1]? = some b := by
            rw [← List.head?_drop, hd]; rfl
          have hc : lines[i+2]? = some c := by
            rw [← List.head?_drop, show i+2 = i+1+1 from rfl, ← List.tail_drop,
              hd]; rfl
          simp only [precursorFlag]
          rw [if_neg]
          intro h
          exact hnp ⟨cur, b, c, ha, hb, hc, h.1, h.2.1, h.2.2⟩

/-- Claim C1: the right-to-left trailing pass, for a line not handled by
the precursor pass: when the next line starts before the original end of
the current line, the current line's corrected end becomes the next
line's corrected end if the overlap is at least 5ms (0.005s), and stays
at the original end if the overlap is under 5ms; when there is a
positive gap to the next line and the current line's following sibling
element is not a manual gap marker, the current line's end is extended
by min(500ms, gap). -/
theorem trailing_pass_spec (lines : List LineT) (i : ℕ) (cur next : LineT)
    (ha : lines[i]? = some cur) (hb : lines[i+1]? = some next)
    (hnp : ¬ precursorHit lines i) :
    (next.startTime < cur.originalEndTime →
      (5/1000 ≤ cur.originalEndTime - next.startTime →
        (retimingNewEnds lines)[i]? = (retimingNewEnds lines)[i+1]?) ∧
      (cur.originalEndTime - next.startTime < 5/1000 →
        (retimingNewEnds lines)[i]? = some cur.originalEndTime)) ∧
    (cur.originalEndTime < next.startTime → cur.followedByManualGap = false →
      (retimingNewEnds lines)[i]? =
        some (cur.originalEndTime +
          min (1/2 : ℚ) (next.startTime - cur.originalEndTime))) := by
  have hlen2 : ¬ lines.length < 2 := by
    have := (List.getElem?_eq_some.1 hb).1; omega
  have hd1 : lines.drop (i+1) = next :: lines.drop (i+2) :=
    drop_cons_of_getElem _ _ _ hb
  have hd0 : lines.drop i = cur :: next :: lines.drop (i+2) := by
    rw [drop_cons_of_getElem _ _ _ ha, hd1]
  have hflag : precursorFlag cur (next :: lines.drop (i+2)) = none := by
    rw [← hd1]; exact precursorFlag_eq_none lines i cur ha hnp
  have hei : (retimingNewEnds lines)[i]? =
      some (trailingCur (cur, none) (markPrecursor (next :: lines.drop (i+2)))) := by
    rw [retimingNewEnds_getElem lines i hlen2, hd0, markPrecursor_cons, hflag,
      trailing_cons]
    rfl
  have hei1 : (retimingNewEnds lines)[i+1]? =
      (trailing (markPrecursor (next :: lines.drop (i+2)))).head? := by
    rw [retimingNewEnds_getElem lines (i+1) hlen2, hd1]
  rw [markPrecursor_cons] at hei hei1
  constructor
  · intro hov
    constructor
    · intro h5
      rw [hei, hei1, trailing_cons]
      simp only [trailingCur]
      rw [if_pos hov, if_pos h5, trailing_cons]
      rfl
    · intro h5
      rw [hei]
      simp only [trailingCur]
      rw [if_pos hov, if_neg (by linarith)]
  · intro hgap hman
    rw [hei]
    simp only [trailingCur]
    rw [if_neg (by linarith), if_pos ⟨by linarith, hman⟩]

/-- Witness for trailing_pass_spec, exercising all three branches on
concrete inputs: a 5ms-or-more overlap ([0,2) then [1.9,4)), a sub-5ms
overlap ([0, 2.004) then [2.003, 4)), and a positive gap ([0,2) then
[3,4)). -/
theorem trailing_pass_spec_witness :
    (retimingNewEnds [⟨0, 2, false⟩, ⟨19/10, 4, false⟩])[0]? =
      (retimingNewEnds [⟨0, 2, false⟩, ⟨19/10, 4, false⟩])[1]? ∧
    (retimingNewEnds [⟨0, 2004/1000, false⟩, ⟨2003/1000, 4, false⟩])[0]? =
      some (2004/1000) ∧
    (retimingNewEnds [⟨0, 2, false⟩, ⟨3, 4, false⟩])[0]? =
      some (2 + min (1/2 : ℚ) (3 - 2)) := by
  refine ⟨?_, ?_, ?_⟩
  · exact ((trailing_pass_spec [⟨0, 2, false⟩, ⟨19/10, 4, false⟩] 0
      ⟨0, 2, false⟩ ⟨19/10, 4, false⟩ rfl rfl
      (by rintro ⟨a, b, c, ha, hb, hc, -⟩; simp at hc)).1
      (by norm_num)).1 (by norm_num)
  · exact ((trailing_pass_spec [⟨0, 2004/1000, false⟩, ⟨2003/1000, 4, false⟩] 0
      ⟨0, 2004/1000, false⟩ ⟨2003/1000, 4, false⟩ rfl rfl
      (by rintro ⟨a, b, c, ha, hb, hc, -⟩; simp at hc)).1
      (by norm_num)).2 (by norm_num)
  · exact (trailing_pass_spec [⟨0, 2, false⟩, ⟨3, 4, false⟩] 0
      ⟨0, 2, false⟩ ⟨3, 4, false⟩ rfl rfl
      (by rintro ⟨a, b, c, ha, hb, hc, -⟩; simp at hc)).2
      (by norm_num) rfl

/-! ## AnimationParameterDeriver (calculatePreHighlightDelay and the
per-character wipe fractions inside _renderWordByWordLyrics)

Measured pixel widths are rationals; durations are milliseconds. -/

/-- JavaScript Math.round on a finite value: floor of x + 1/2. -/
def jround (q : ℚ) : ℤ := ⌊q + 1/2⌋

/-- syllableWidthEm: measured syllable width over the measured width of
the capital letter M, guarded to 0 when the em width is not positive. -/
def syllableWidthEm (widthPx emWidthPx : ℚ) : ℚ :=
  if 0 < emWidthPx then widthPx / emWidthPx else 0

/-- totalAnimationDistance = finalGradientPosition −
initialGradientPosition, with gradientWidth 0.75em and half width
0.375em = 3/8. -/
def totalAnimationDistance (widthPx emWidthPx : ℚ) : ℚ :=
  (syllableWidthEm widthPx emWidthPx + 3/8) - (-(3/8))

/-- triggerPosition: 0.1875em to the left of the origin when the
syllable is at most one gradient wide, otherwise half a gradient before
the end of the text. -/
def triggerPosition (widthPx emWidthPx : ℚ) : ℚ :=
  if syllableWidthEm widthPx emWidthPx ≤ 3/4 then -(3/8) * (1/2)
  else syllableWidthEm widthPx emWidthPx - 3/8

/-- triggerTimingFraction = distanceToTrigger / totalAnimationDistance,
guarded to 0 when the total distance is not positive. -/
def triggerTimingFraction (widthPx emWidthPx : ℚ) : ℚ :=
  if 0 < totalAnimationDistance widthPx emWidthPx then
    (triggerPosition widthPx emWidthPx - (-(3/8))) /
      totalAnimationDistance widthPx emWidthPx
  else 0

/-- calculatePreHighlightDelay: Math.max(0, Math.round(fraction ×
currentSyllableDurationMs)). -/
def calculatePreHighlightDelay (widthPx emWidthPx currentDuration : ℚ) : ℤ :=
  max 0 (jround (triggerTimingFraction widthPx emWidthPx * currentDuration))

/-- The pair (preHighlightDelayMs, preHighlightDurationMs) stored on a
syllable that is followed by another syllable: delayMs and
Math.max(0, currentDuration − delayMs). -/
def storePreHighlight (widthPx emWidthPx currentDuration : ℚ) : ℤ × ℚ :=
  (calculatePreHighlightDelay widthPx emWidthPx currentDuration,
    max 0 (currentDuration -
      (calculatePreHighlightDelay widthPx emWidthPx currentDuration : ℚ)))

/-- Per-character wipe fractions for an emphasized syllable: for each
non-space character (given by its measured width, scanned left to
right with a running cumulative width), dataset.wipeStart and
dataset.wipeDuration are set to cumulative/total and width/total only
when the total measured syllable width is positive. -/
def charWipeGo (total : ℚ) : List ℚ → ℚ → List (Option (ℚ × ℚ))
  | [], _ => []
  | w :: rest, cum =>
      (if 0 < total then some (cum / total, w / total) else none) ::
        charWipeGo total rest (cum + w)

def charWipeFractions (charWidths : List ℚ) (total : ℚ) :
    List (Option (ℚ × ℚ)) :=
  charWipeGo total charWidths 0

/-- Claim C3: for a syllable followed by another syllable, the stored
preHighlightDelayMs is round(triggerFraction × durationMs) clamped to at
least 0 and the stored preHighlightDurationMs is max(0, durationMs −
delayMs); concretely, a syllable of duration 1000ms whose measured width
is 1.125em (18px against a 16px em) has trigger fraction exactly 3/5 and
stores delayMs = 600 and preHighlightDurationMs = 400. -/
theorem preHighlight_storage_formula :
    (∀ w e dur, (storePreHighlight w e dur).1 =
        max 0 (jround (triggerTimingFraction w e * dur)) ∧
      (storePreHighlight w e dur).2 =
        max 0 (dur - ((storePreHighlight w e dur).1 : ℚ))) ∧
    triggerTimingFraction 18 16 = 3/5 ∧
    storePreHighlight 18 16 1000 = (600, 400) := by
  refine ⟨fun w e dur => ⟨rfl, rfl⟩, ?_, ?_⟩
  · norm_num [triggerTimingFraction, totalAnimationDistance, triggerPosition,
      syllableWidthEm]
  · have hf : triggerTimingFraction 18 16 = 3/5 := by
      norm_num [triggerTimingFraction, totalAnimationDistance, triggerPosition,
        syllableWidthEm]
    have hd : calculatePreHighlightDelay 18 16 1000 = 600 := by
      rw [calculatePreHighlightDelay, hf, jround]
      norm_num
    rw [storePreHighlight, hd]
    norm_num

theorem triggerTimingFraction_bounds (w e : ℚ) (hw : 0 ≤ w) :
    0 ≤ triggerTimingFraction w e ∧ triggerTimingFraction w e < 1 := by
  have hsw : 0 ≤ syllableWidthEm w e := by
    rw [syllableWidthEm]
    split
    · exact div_nonneg hw (le_of_lt (by assumption))
    · exact le_refl 0
  have htot : 0 < totalAnimationDistance w e := by
    rw [totalAnimationDistance]; linarith
  rw [triggerTimingFraction, if_pos htot, triggerPosition]
  split
  · constructor
    · exact div_nonneg (by norm_num) htot.le
    · rw [div_lt_one htot, totalAnimationDistance]
      linarith
  · constructor
    · exact div_nonneg (by linarith) htot.le
    · rw [div_lt_one htot, totalAnimationDistance]
      linarith

/-- Claim C10: when a syllable of non-negative integer duration n (in
ms) stores pre-highlight parameters, the computed trigger fraction lies
in [0,1) even though the code applies no explicit upper clamp, the
stored delay is an integer in [0, n], and delay + preHighlightDurationMs
= n exactly: the two stored values partition the syllable's duration.
The hypothesis is that the measured syllable width is non-negative. -/
theorem preHighlight_partitions_duration (w e : ℚ) (n : ℕ) (hw : 0 ≤ w) :
    0 ≤ triggerTimingFraction w e ∧ triggerTimingFraction w e < 1 ∧
    0 ≤ (storePreHighlight w e (n : ℚ)).1 ∧
    (storePreHighlight w e (n : ℚ)).1 ≤ (n : ℤ) ∧
    ((storePreHighlight w e (n : ℚ)).1 : ℚ) + (storePreHighlight w e (n : ℚ)).2
      = (n : ℚ) := by
  obtain ⟨hf0, hf1⟩ := triggerTimingFraction_bounds w e hw
  have hfn : triggerTimingFraction w e * (n : ℚ) ≤ (n : ℚ) := by
    have h := mul_le_mul_of_nonneg_right (le_of_lt hf1)
      (show (0:ℚ) ≤ (n:ℚ) by positivity)
    simpa using h
  have hfloor : jround (triggerTimingFraction w e * (n : ℚ)) ≤ (n : ℤ) := by
    rw [jround]
    have h2 : ⌊((n : ℚ) + 1/2)⌋ = (n : ℤ) := by
      rw [show ((n : ℚ)) = ((n : ℤ) : ℚ) by push_cast; ring, add_comm,
        Int.floor_add_int]
      norm_num
    calc ⌊triggerTimingFraction w e * (n : ℚ) + 1/2⌋
        ≤ ⌊(n : ℚ) + 1/2⌋ := Int.floor_le_floor (by linarith)
      _ = (n : ℤ) := h2
  have hd0 : (0:ℤ) ≤ calculatePreHighlightDelay w e (n : ℚ) := le_max_left _ _
  have hdn : calculatePreHighlightDelay w e (n : ℚ) ≤ (n : ℤ) := by
    rw [calculatePreHighlightDelay]
    exact max_le (by positivity) hfloor
  refine ⟨hf0, hf1, hd0, hdn, ?_⟩
  rw [storePreHighlight]
  simp only
  have hsub : (0:ℚ) ≤ (n : ℚ) - (calculatePreHighlightDelay w e (n : ℚ) : ℚ) := by
    rw [sub_nonneg]
    exact_mod_cast hdn
  rw [max_eq_right hsub]
  ring

/-- Witness for preHighlight_partitions_duration at width 18px, em 16px,
duration 1000ms. -/
theorem preHighlight_partitions_duration_witness :
    0 ≤ triggerTimingFraction 18 16 ∧ triggerTimingFraction 18 16 < 1 ∧
    0 ≤ (storePreHighlight 18 16 ((1000 : ℕ) : ℚ)).1 ∧
    (storePreHighlight 18 16 ((1000 : ℕ) : ℚ)).1 ≤ ((1000 : ℕ) : ℤ) ∧
    ((storePreHighlight 18 16 ((1000 : ℕ) : ℚ)).1 : ℚ) +
      (storePreHighlight 18 16 ((1000 : ℕ) : ℚ)).2 = ((1000 : ℕ) : ℚ) :=
  preHighlight_partitions_duration 18 16 1000 (by norm_num)

/-- Claim C8: degenerate inputs no-op rather than throw.  Timing
correction on fewer than 2 lines returns immediately with every end
unchanged (both the pass result and the dataset write-back); a
non-positive measured em width makes the width ratio 0; a non-positive
total animation distance makes the trigger fraction 0; a non-positive
total syllable width skips every per-character wipe fraction; and the
derived delay is always a well-defined non-negative number. -/
theorem degenerate_inputs_guarded :
    (∀ lines : List LineT, lines.length < 2 →
      retimingNewEnds lines = lines.map (fun l => l.originalEndTime) ∧
      retimingWrittenEnds lines = lines.map (fun l => l.originalEndTime)) ∧
    (∀ w e : ℚ, e ≤ 0 → syllableWidthEm w e = 0) ∧
    (∀ w e : ℚ, totalAnimationDistance w e ≤ 0 → triggerTimingFraction w e = 0) ∧
    (∀ (ws : List ℚ) (total : ℚ), total ≤ 0 →
      charWipeFractions ws total = ws.map (fun _ => none)) ∧
    (∀ w e dur : ℚ, 0 ≤ calculatePreHighlightDelay w e dur) := by
  refine ⟨?_, ?_, ?_, ?_, ?_⟩
  · intro lines h
    have h1 : retimingNewEnds lines = lines.map (fun l => l.originalEndTime) := by
      rw [retimingNewEnds, if_pos h]
    refine ⟨h1, ?_⟩
    rw [retimingWrittenEnds, h1]
    rcases lines with _ | ⟨a, _ | ⟨b, t⟩⟩
    · rfl
    · simp
    · simp only [List.length_cons] at h
      omega
  · intro w e h
    rw [syllableWidthEm, if_neg (not_lt.2 h)]
  · intro w e h
    rw [triggerTimingFraction, if_neg (not_lt.2 h)]
  · intro ws total h
    have key : ∀ (l : List ℚ) (cum : ℚ),
        charWipeGo total l cum = l.map (fun _ => none) := by
      intro l
      induction l with
      | nil => intro cum; rfl
      | cons w rest ih =>
          intro cum
          simp only [charWipeGo, List.map]
          rw [if_neg (not_lt.2 h), ih]
    exact key ws 0
  · intro w e dur
    exact le_max_left _ _

/-- Witness for degenerate_inputs_guarded: a one-line correction input,
a zero em width, a negative-ratio width making the animation distance
zero, a zero total syllable width, and a concrete delay. -/
theorem degenerate_inputs_guarded_witness :
    retimingNewEnds [⟨0, 1, false⟩] = [1] ∧
    syllableWidthEm 5 0 = 0 ∧
    triggerTimingFraction (-3) 4 = 0 ∧
    charWipeFractions [2, 3] 0 = [none, none] ∧
    0 ≤ calculatePreHighlightDelay 18 16 1000 := by
  refine ⟨?_, ?_, ?_, ?_, ?_⟩
  · simpa using (degenerate_inputs_guarded.1 [⟨0, 1, false⟩] (by norm_num)).1
  · exact degenerate_inputs_guarded.2.1 5 0 le_rfl
  · exact degenerate_inputs_guarded.2.2.1 (-3) 4
      (by norm_num [totalAnimationDistance, syllableWidthEm])
  · simpa using degenerate_inputs_guarded.2.2.2.1 [2, 3] 0 le_rfl
  · exact degenerate_inputs_guarded.2.2.2.2 18 16 1000

/-! ## ActivationScheduler (_updateLyricsHighlight, highlighting part)

A cached line is modelled by its _startTimeMs/_endTimeMs fields and its
element id.  The highlighting loop walks the visible lines in cache
order and collects at most 3 lines satisfying
currentTime >= start - 190 && currentTime <= end - 190, then sorts the
result by start time descending; index 0 of the sorted array is the
most recent active line (fullscreen-focused). -/

structure HLine where
  startTimeMs : ℚ
  endTimeMs : ℚ
  id : ℕ
deriving DecidableEq, Repr

def highlightLookAheadMs : ℚ := 190

/-- The activation test of the highlighting loop (note: both comparisons
are inclusive in the source). -/
def highlightActiveCond (t : ℚ) (l : HLine) : Bool :=
  decide (l.startTimeMs - highlightLookAheadMs ≤ t) &&
    decide (t ≤ l.endTimeMs - highlightLookAheadMs)

/-- The collection loop, bounded by the remaining capacity (the source
loop stops as soon as 3 matches were found). -/
def collectActive (t : ℚ) : List HLine → ℕ → List HLine
  | _, 0 => []
  | [], _ + 1 => []
  | l :: ls, k + 1 =>
      if highlightActiveCond t l then l :: collectActive t ls k
      else collectActive t ls (k + 1)

def activeLinesForHighlighting (visible : List HLine) (t : ℚ) : List HLine :=
  collectActive t visible 3

/-- The line at index 0 after the descending sort by start time: the
most recent active line, used for the fullscreen-focused class. -/
def mostRecentActiveLine (visible : List HLine) (t : ℚ) : Option HLine :=
  ((activeLinesForHighlighting visible t).mergeSort
    (fun a b => decide (b.startTimeMs ≤ a.startTimeMs))).head?

theorem collectActive_eq_filter_take (t : ℚ) (l : List HLine) :
    ∀ k, collectActive t l k = (l.filter (highlightActiveCond t)).take k := by
  induction l with
  | nil => intro k; cases k <;> rfl
  | cons x xs ih =>
      intro k
      cases k with
      | zero => rfl
      | succ k =>
          by_cases hx : highlightActiveCond t x = true
          · simp [collectActive, List.filter_cons, hx, ih k]
          · simp [collectActive, List.filter_cons, hx, ih (k+1)]

/-- Counterexample to claim C4 as stated: the activation interval is
closed at its right end, not half-open.  A visible line with startMs =
190 and endMs = 1190 is collected as active at t = 1000 although t does
not lie in the half-open interval, because t = endMs − 190 exactly. -/
theorem highlight_interval_closed_at_right_end :
    (⟨190, 1190, 0⟩ : HLine) ∈ activeLinesForHighlighting [⟨190, 1190, 0⟩] 1000 ∧
    ¬ ((1000 : ℚ) < (1190 : ℚ) - 190) := by
  constructor
  · simp [activeLinesForHighlighting, collectActive, highlightActiveCond,
      highlightLookAheadMs]
    norm_num
  · norm_num

/-- Claim C4 (amended): on a tick at clock time t a line is collected as
active exactly when it is among the currently visible lines and t lies
in the closed interval [startMs − 190, endMs − 190] (the source uses an
inclusive comparison at both ends, not a half-open interval); at most
the 3 earliest-found visible matches are taken, and the most recent
active line (index 0 after the descending sort) has the latest start
time among all active lines. -/
theorem active_lines_closed_interval (visible : List HLine) (t : ℚ) :
    activeLinesForHighlighting visible t =
      (visible.filter (highlightActiveCond t)).take 3 ∧
    (∀ l ∈ activeLinesForHighlighting visible t,
      l ∈ visible ∧ l.startTimeMs - 190 ≤ t ∧ t ≤ l.endTimeMs - 190) ∧
    (activeLinesForHighlighting visible t).length ≤ 3 ∧
    (∀ m, mostRecentActiveLine visible t = some m →
      ∀ l ∈ activeLinesForHighlighting visible t,
        l.startTimeMs ≤ m.startTimeMs) := by
  have heq := collectActive_eq_filter_take t visible 3
  refine ⟨heq, ?_, ?_, ?_⟩
  · intro l hl
    rw [activeLinesForHighlighting, heq] at hl
    have hmem := List.mem_filter.1 (List.take_subset _ _ hl)
    have hcond := hmem.2
    simp only [highlightActiveCond, highlightLookAheadMs, Bool.and_eq_true,
      decide_eq_true_eq] at hcond
    exact ⟨hmem.1, hcond.1, hcond.2⟩
  · rw [activeLinesForHighlighting, heq]
    exact (List.length_take_le _ _)
  · intro m hm l hl
    have hperm := List.mergeSort_perm (activeLinesForHighlighting visible t)
      (fun a b => decide (b.startTimeMs ≤ a.startTimeMs))
    have hsorted := @List.sorted_mergeSort HLine
      (fun a b : HLine => decide (b.startTimeMs ≤ a.startTimeMs))
      (fun a b c hab hbc => by
        simp only [decide_eq_true_eq] at *
        exact le_trans hbc hab)
      (fun a b => by
        simp only [Bool.or_eq_true, decide_eq_true_eq]
        exact le_total b.startTimeMs a.startTimeMs)
      (activeLinesForHighlighting visible t)
    rw [mostRecentActiveLine] at hm
    set s := (activeLinesForHighlighting visible t).mergeSort
      (fun a b => decide (b.startTimeMs ≤ a.startTimeMs)) with hs
    have hls : l ∈ s := hperm.mem_iff.2 hl
    cases hsm : s with
    | nil => rw [hsm] at hls; simp at hls
    | cons a rest =>
        rw [hsm] at hm
        have ham : a = m := by
          simpa using hm
        rw [hsm] at hls hsorted
        rcases List.mem_cons.1 hls with h | h
        · rw [h, ham]
        · have := (List.pairwise_cons.1 hsorted).1 l h
          simp only [decide_eq_true_eq] at this
          rw [← ham]
          exact this

/-! ## ActivationScheduler (_updateSyllables, per-syllable state machine)

A syllable's per-tick state is the pair of CSS classes the code reads
and writes: highlight and finished.  One tick evaluates, in order:
in-range (startMs <= t <= endMs) adds highlight; rewind (t < startMs
while highlighted) clears both flags; past (t > startMs) marks finished,
or re-adds highlight when already finished but unhighlighted. -/

structure SylState where
  highlight : Bool
  finished : Bool
deriving DecidableEq, Repr

inductive SylPhase
  | pending
  | highlighting
  | finished
deriving DecidableEq, Repr

def updateSyllableTick (startTime endTime t : ℚ) (s : SylState) : SylState :=
  if startTime ≤ t ∧ t ≤ endTime then
    if s.highlight then s else { s with highlight := true }
  else if t < startTime ∧ s.highlight = true then
    ⟨false, false⟩
  else if startTime < t then
    if s.finished then
      (if s.highlight then s else { s with highlight := true })
    else { s with finished := true }
  else s

def phaseOf (s : SylState) : SylPhase :=
  if s.finished then .finished else if s.highlight then .highlighting else .pending

def rank : SylPhase → ℕ
  | .pending => 0
  | .highlighting => 1
  | .finished => 2

/-- The sequence of phases produced by ticking at the given clock times
in order, starting from the given state. -/
def tickTrace (startTime endTime : ℚ) : List ℚ → SylState → List SylPhase
  | [], _ => []
  | t :: rest, s =>
      phaseOf (updateSyllableTick startTime endTime t s) ::
        tickTrace startTime endTime rest (updateSyllableTick startTime endTime t s)

/-- Counterexample to claim C5 as stated: for a syllable with startMs =
1000 and durationMs = 500 (endMs = 1500), the tick at t = 1500 still
satisfies the inclusive in-range test t <= endMs, so the state after
that tick is highlighting, not finished; the claimed sequence
highlighting, highlighting, finished, finished does not occur. -/
theorem syllable_phase_at_exact_end :
    tickTrace 1000 1500 [1000, 1200, 1500, 1600] ⟨false, false⟩ =
      [.highlighting, .highlighting, .highlighting, .finished] ∧
    tickTrace 1000 1500 [1000, 1200, 1500, 1600] ⟨false, false⟩ ≠
      [.highlighting, .highlighting, .finished, .finished] := by
  constructor
  · rfl
  · decide

/-- Claim C5 (amended): for a syllable of an active line with startMs =
1000 and durationMs = 500 (endMs = 1500), ticking at t = 1000, 1200,
1500, 1600 yields highlighting, highlighting, highlighting, finished —
the in-range test is inclusive of endMs, so finished is first marked
strictly after endMs — and the state never regresses at any tick with
t at or after startMs; the only transition back is the explicit rewind
when t < startMs while highlighted, which clears both flags. -/
theorem syllable_tick_monotone :
    tickTrace 1000 1500 [1000, 1200, 1500, 1600] ⟨false, false⟩ =
      [.highlighting, .highlighting, .highlighting, .finished] ∧
    (∀ (startTime endTime t : ℚ) (s : SylState), startTime ≤ t →
      rank (phaseOf s) ≤
        rank (phaseOf (updateSyllableTick startTime endTime t s))) ∧
    (∀ (startTime endTime t : ℚ) (s : SylState),
      t < startTime → s.highlight = true →
      updateSyllableTick startTime endTime t s = ⟨false, false⟩) := by
  refine ⟨rfl, ?_, ?_⟩
  · intro startTime endTime t s hst
    rcases s with ⟨hl, fin⟩
    rw [updateSyllableTick]
    split_ifs with h1 h2 h3 h4 h5 <;>
      first
        | exact le_refl _
        | (exact absurd h2.1 (not_lt.2 hst))
        | ((cases hl <;> cases fin <;> simp_all [phaseOf, rank]) <;> linarith)
  · intro startTime endTime t s hlt hhl
    rcases s with ⟨hl, fin⟩
    rw [updateSyllableTick]
    rw [if_neg (by rintro ⟨h, -⟩; exact absurd hlt (not_lt.2 h)),
      if_pos ⟨hlt, hhl⟩]

/-- Witness for syllable_tick_monotone: the monotone step at t = 1200
for an already highlighted syllable, and the rewind at t = 500. -/
theorem syllable_tick_monotone_witness :
    rank (phaseOf ⟨true, false⟩) ≤
      rank (phaseOf (updateSyllableTick 1000 1500 1200 ⟨true, false⟩)) ∧
    updateSyllableTick 1000 1500 500 ⟨true, false⟩ = ⟨false, false⟩ :=
  ⟨syllable_tick_monotone.2.1 1000 1500 1200 ⟨true, false⟩ (by norm_num),
    syllable_tick_monotone.2.2 1000 1500 500 ⟨true, false⟩ (by norm_num) rfl⟩

/-! ## ScrollCoordinator (_startLyricsSync seek classification,
_scrollToActiveLine, _animateScroll)

The sync loop computes isForceScroll = |currentTime − lastTime| > 1000
and passes it down _updateLyricsHighlight →
_updatePositionClassesAndScroll → _scrollToActiveLine.  Inside
_scrollToActiveLine the flag is only used to skip early-exit guards; the
final call is _animateScroll(targetTranslateY) with a single argument,
so the forceScroll parameter of _animateScroll always takes its default
value false, and the user-scrolling class was removed just before the
call.  _animateScroll therefore reaches its zero-delay branch only via
the user-scrolling class, never via a seek. -/

def classifiesAsSeek (prevTime currentTime : ℚ) : Bool :=
  decide (|currentTime - prevTime| > 1000)

/-- The staggered-delay loop of _animateScroll: visible lines from the
reference index onward get delayCounter × 30ms (the counter advancing
with them); other lines get 0ms. -/
def staggerDelays : List Bool → ℕ → ℕ → ℕ → List ℕ
  | [], _, _, _ => []
  | v :: vs, refIdx, i, counter =>
      if v then
        (if refIdx ≤ i then counter * 30 else 0) ::
          staggerDelays vs refIdx (i+1) (if refIdx ≤ i then counter + 1 else counter)
      else 0 :: staggerDelays vs refIdx (i+1) counter

/-- Per-line transition delays written by _animateScroll, as a function
of its forceScroll parameter, the user-scrolling class, whether the
target offset changed, the visibility flags of the cached lines and the
reference line index.  none models the early exit that leaves all
existing delays untouched. -/
def animateScrollDelays (forceScroll isUserScrolling offsetChanged : Bool)
    (visible : List Bool) (refIdx : ℕ) : Option (List ℕ) :=
  if forceScroll = false ∧ offsetChanged = false then none
  else if forceScroll || isUserScrolling then some (visible.map (fun _ => 0))
  else some (staggerDelays visible refIdx 0 0)

/-- _scrollToActiveLine: the received forceScroll flag is consumed by
the early-exit guards only; _animateScroll is invoked with one argument,
its forceScroll defaulting to false, after the user-scrolling class was
removed. -/
def scrollToActiveLineDelays (_forceScroll offsetChanged : Bool)
    (visible : List Bool) (refIdx : ℕ) : Option (List ℕ) :=
  animateScrollDelays false false offsetChanged visible refIdx

/-- One sync tick at currentTime after a previous tick at prevTime, as
far as the scroll-delay writes are concerned. -/
def seekTickScrollDelays (prevTime currentTime : ℚ) (offsetChanged : Bool)
    (visible : List Bool) (refIdx : ℕ) : Option (List ℕ) :=
  scrollToActiveLineDelays (classifiesAsSeek prevTime currentTime)
    offsetChanged visible refIdx

/-- Claim C6 evaluated at its failing input: ticking at t = 10000 right
after a tick at t = 1000 is classified as a seek, yet the scroll update
applies the ordinary 30ms-per-line staggered delays (here [0, 30, 60]
for three visible lines with reference index 0) instead of 0ms on every
line, because _scrollToActiveLine never forwards its forceScroll flag to
_animateScroll. -/
theorem seek_does_not_zero_scroll_delays :
    classifiesAsSeek 1000 10000 = true ∧
    seekTickScrollDelays 1000 10000 true [true, true, true] 0 =
      some [0, 30, 60] ∧
    seekTickScrollDelays 1000 10000 true [true, true, true] 0 ≠
      some [0, 0, 0] := by
  refine ⟨?_, ?_, ?_⟩
  · simp only [classifiesAsSeek, decide_eq_true_eq]
    rw [show (10000 : ℚ) - 1000 = 9000 by norm_num,
      abs_of_nonneg (by norm_num : (0:ℚ) ≤ 9000)]
    norm_num
  · rfl
  · decide

/-! ## Render pass syllable linking (_renderWordByWordLyrics)

Syllables are modelled by numeric identifiers; a line is the list of its
words in flush order, each word the list of its syllable ids.  Within
flushWordBuffer, each syllable except the last of the word receives
_nextSyllableInWord = the next syllable of the word; in addition, the
pendingSyllable mechanism makes the previous flushed word's last
syllable point at the first syllable of the current word.  The pending
reference starts as null for each line and is replaced by the word's
last syllable after each non-empty flush. -/

def withinWordLinks : List ℕ → List (ℕ × ℕ)
  | [] => []
  | [_] => []
  | a :: b :: rest => (a, b) :: withinWordLinks (b :: rest)

/-- The pendingSyllable link created at the start of a non-empty flush:
the pending syllable (the previous word's last syllable, when one
exists) points at the first syllable of the word being flushed. -/
def bridgeLink : Option ℕ → List ℕ → List (ℕ × ℕ)
  | some p, h :: _ => [(p, h)]
  | _, _ => []

def flushWords : List (List ℕ) → Option ℕ → List (ℕ × ℕ)
  | [], _ => []
  | w :: ws, pending =>
      if w.isEmpty then flushWords ws pending
      else bridgeLink pending w ++ withinWordLinks w ++ flushWords ws w.getLast?

/-- All (syllable, nextSyllableInWord) assignments made while rendering
one line, in flush order. -/
def lineNextLinks (words : List (List ℕ)) : List (ℕ × ℕ) :=
  flushWords words none

/-- The property claim C9 asserts: every assigned nextSyllableInWord
reference stays inside a single word. -/
def noCrossWordLinks (words : List (List ℕ)) : Prop :=
  ∀ p ∈ lineNextLinks words, ∃ w ∈ words, p.1 ∈ w ∧ p.2 ∈ w

instance (words : List (List ℕ)) : Decidable (noCrossWordLinks words) := by
  unfold noCrossWordLinks
  infer_instance

/-- Counterexample to claim C9: for a line consisting of two one-syllable
words, the pendingSyllable mechanism links syllable 0 — the last (and
only) syllable of its word — to syllable 1, the first syllable of the
next word, so the reference crosses a word boundary instead of being
null. -/
theorem nextSyllable_crosses_word_boundary :
    lineNextLinks [[0], [1]] = [(0, 1)] ∧ ¬ noCrossWordLinks [[0], [1]] := by
  constructor
  · rfl
  · decide

theorem withinWordLinks_append (u : List ℕ) (hu : u ≠ []) (rest : List ℕ) :
    withinWordLinks (u ++ rest) =
      withinWordLinks u ++ withinWordLinks (u.getLast hu :: rest) := by
  induction u with
  | nil => exact absurd rfl hu
  | cons a t ih =>
      match t with
      | [] =>
          simp [withinWordLinks, List.getLast]
      | b :: t2 =>
          have hbt : (b :: t2) ≠ [] := by simp
          calc withinWordLinks ((a :: b :: t2) ++ rest)
              = (a, b) :: withinWordLinks ((b :: t2) ++ rest) := rfl
            _ = (a, b) :: (withinWordLinks (b :: t2) ++
                  withinWordLinks ((b :: t2).getLast hbt :: rest)) := by
                rw [ih hbt]
            _ = withinWordLinks (a :: b :: t2) ++
                  withinWordLinks ((a :: b :: t2).getLast hu :: rest) := by
                rw [List.getLast_cons hbt]
                rfl

theorem flushWords_join (words : List (List ℕ)) (hw : ∀ w ∈ words, w ≠ []) :
    ∀ pending : Option ℕ,
      flushWords words pending =
        withinWordLinks (pending.toList ++ words.flatten) := by
  induction words with
  | nil =>
      intro pending
      cases pending with
      | none => rfl
      | some p => rfl
  | cons w ws ih =>
      intro pending
      have hw0 : w ≠ [] := hw w (List.mem_cons_self w ws)
      have hws : ∀ u ∈ ws, u ≠ [] := fun u hu => hw u (List.mem_cons_of_mem w hu)
      match w, hw0 with
      | a :: t, _ =>
          have hne : (a :: t) ≠ [] := by simp
          have hlast : (a :: t).getLast? = some ((a :: t).getLast hne) :=
            List.getLast?_eq_getLast _ hne
          have happ := withinWordLinks_append (a :: t) hne (ws.flatten)
          cases pending with
          | none =>
              show flushWords ((a :: t) :: ws) none =
                withinWordLinks ((a :: t) :: ws).flatten
              rw [flushWords, if_neg (by simp), hlast, ih hws]
              simp only [Option.toList, List.flatten_cons]
              rw [happ]
              rfl
          | some p =>
              show flushWords ((a :: t) :: ws) (some p) =
                withinWordLinks ([p] ++ ((a :: t) :: ws).flatten)
              rw [flushWords, if_neg (by simp), hlast, ih hws]
              simp only [Option.toList, List.flatten_cons]
              calc bridgeLink (some p) (a :: t) ++
                      withinWordLinks (a :: t) ++
                      withinWordLinks ([(a :: t).getLast hne] ++ ws.flatten)
                  = (p, a) :: (withinWordLinks (a :: t) ++
                      withinWordLinks ((a :: t).getLast hne :: ws.flatten)) := rfl
                _ = (p, a) :: withinWordLinks ((a :: t) ++ ws.flatten) := by
                    rw [happ]
                _ = withinWordLinks ([p] ++ ((a :: t) ++ ws.flatten)) := rfl

/-- Claim C9 (amended): the nextSyllableInWord references produced by a
render pass are exactly the consecutive pairs of the line's flattened
syllable sequence: every syllable except the last of the LINE points at
the very next syllable, crossing word boundaries through the
pendingSyllable mechanism (the last syllable of each non-final word
points at the first syllable of the following word), and only the last
syllable of the line is left with a null reference.  Hypothesis: every
flushed word is non-empty (flushWordBuffer returns early on an empty
buffer). -/
theorem nextSyllable_links_flatten (words : List (List ℕ))
    (hw : ∀ w ∈ words, w ≠ []) :
    lineNextLinks words = withinWordLinks words.flatten := by
  have h := flushWords_join words hw none
  simpa [lineNextLinks] using h

/-- Witness for nextSyllable_links_flatten at the two-word line [[0],[1]]. -/
theorem nextSyllable_links_flatten_witness :
    lineNextLinks [[0], [1]] = withinWordLinks ([[0], [1]] : List (List ℕ)).flatten :=
  nextSyllable_links_flatten [[0], [1]] (by decide)

/-! ## No-outlive analysis of the corrected ends (claim C7) -/

theorem chain'_drop {α : Type} (R : α → α → Prop) (l : List α)
    (h : l.Chain' R) (n : ℕ) : (l.drop n).Chain' R := by
  induction n with
  | zero => simpa using h
  | succ n ih =>
      rw [← List.tail_drop]
      exact ih.tail

theorem markPrecursor_map_fst (l : List LineT) :
    (markPrecursor l).map Prod.fst = l := by
  induction l with
  | nil => rfl
  | cons a t ih =>
      rw [markPrecursor_cons, List.map_cons, ih]

theorem markPrecursor_flag_ge_end (l : List LineT) :
    ∀ x ∈ markPrecursor l, ∀ e, x.2 = some e → x.1.originalEndTime ≤ e := by
  induction l with
  | nil => intro x hx; simp [markPrecursor] at hx
  | cons a t ih =>
      intro x hx e he
      rw [markPrecursor_cons] at hx
      rcases List.mem_cons.1 hx with h | h
      · subst h
        simp only at he
        match t, he with
        | b :: c :: rest, he =>
            rw [precursorFlag] at he
            split_ifs at he with hcond
            · cases he
              exact hcond.2.2
      · exact ih x h e he

theorem markPrecursor_sorted (l : List LineT)
    (h : l.Chain' (fun p q => p.startTime ≤ q.startTime)) :
    (markPrecursor l).Chain'
      (fun p q => p.1.startTime ≤ q.1.startTime) := by
  have hmap := @List.chain'_map LineT (LineT × Option ℚ)
    (fun p q : LineT => p.startTime ≤ q.startTime) Prod.fst (markPrecursor l)
  rw [markPrecursor_map_fst] at hmap
  exact hmap.1 h

theorem markPrecursor_fst_mem (l : List LineT) (x : LineT × Option ℚ)
    (hx : x ∈ markPrecursor l) : x.1 ∈ l := by
  have := List.mem_map_of_mem (fun z : LineT × Option ℚ => z.1) hx
  rwa [markPrecursor_map_fst] at this

/-- Every corrected end the trailing pass produces is at least the
corresponding line's start time, provided the lines are ordered by
start, every line starts before its original end, and every
precursor-assigned end is at least the line's original end. -/
theorem trailingCur_ge_start :
    ∀ (rest : List (LineT × Option ℚ)) (x : LineT × Option ℚ),
      (x :: rest).Chain' (fun p q => p.1.startTime ≤ q.1.startTime) →
      (∀ z ∈ x :: rest, z.1.startTime < z.1.originalEndTime) →
      (∀ z ∈ x :: rest, ∀ e, z.2 = some e → z.1.originalEndTime ≤ e) →
      x.1.startTime ≤ trailingCur x rest := by
  intro rest
  induction rest with
  | nil =>
      rintro ⟨x1, x2⟩ hs hv hf
      cases x2 with
      | none =>
          simp only [trailingCur, Option.getD]
          exact le_of_lt (hv _ (List.mem_cons_self _ _))
      | some e =>
          simp only [trailingCur, Option.getD]
          exact le_of_lt (lt_of_lt_of_le (hv _ (List.mem_cons_self _ _))
            (hf _ (List.mem_cons_self _ _) e rfl))
  | cons y rest2 ih =>
      rintro ⟨x1, x2⟩ hs hv hf
      cases x2 with
      | some e =>
          simp only [trailingCur]
          exact le_of_lt (lt_of_lt_of_le (hv _ (List.mem_cons_self _ _))
            (hf _ (List.mem_cons_self _ _) e rfl))
      | none =>
          simp only [trailingCur]
          split_ifs with h1 h2 h3
          · rw [trailing_cons, List.headD_cons]
            have hxy : x1.startTime ≤ y.1.startTime :=
              (List.chain'_cons.1 hs).1
            have hrec : y.1.startTime ≤ trailingCur y rest2 :=
              ih y ((List.chain'_cons.1 hs).2)
                (fun z hz => hv z (List.mem_cons_of_mem _ hz))
                (fun z hz => hf z (List.mem_cons_of_mem _ hz))
            exact le_trans hxy hrec
          · exact le_of_lt (hv _ (List.mem_cons_self _ _))
          · have hmin : (0:ℚ) ≤ min (1/2 : ℚ) (y.1.startTime - x1.originalEndTime) :=
              le_min (by norm_num) (le_of_lt h3.1)
            have := hv (x1, none) (List.mem_cons_self _ _)
            simp only at this
            linarith
          · exact le_of_lt (hv _ (List.mem_cons_self _ _))

theorem trailingCur_some (a : LineT) (e : ℚ) :
    ∀ M : List (LineT × Option ℚ), trailingCur (a, some e) M = e := by
  intro M
  cases M <;> rfl

theorem trailingCur_none_cons (a y1 : LineT) (y2 : Option ℚ)
    (M : List (LineT × Option ℚ)) :
    trailingCur (a, none) ((y1, y2) :: M) =
      if y1.startTime < a.originalEndTime then
        if 5/1000 ≤ a.originalEndTime - y1.startTime then
          (trailing ((y1, y2) :: M)).headD 0
        else a.originalEndTime
      else
        if 0 < y1.startTime - a.originalEndTime ∧
            a.followedByManualGap = false then
          a.originalEndTime + min (1/2 : ℚ) (y1.startTime - a.originalEndTime)
        else a.originalEndTime := rfl

/-- Counterexample to claim C7 as stated: a sorted, well-formed input on
which a corrected end exceeds the next line's corrected end.  Line A =
[0, 1.004), line B = [1.000, 1.002): the overlap is 4ms < 5ms, so the
trailing pass zeroes it out and keeps A's end at 1.004, while B (the
last line) keeps its original end 1.002 — A outlives B by 2ms. -/
theorem corrected_end_outlives_next_on_sub5ms_overlap :
    retimingNewEnds [⟨0, 1004/1000, false⟩, ⟨1, 1002/1000, false⟩] =
      [1004/1000, 1002/1000] ∧
    ¬ ((1004/1000 : ℚ) ≤ 1002/1000) := by
  constructor
  · rw [retimingNewEnds, if_neg (by norm_num),
      show markPrecursor [⟨0, 1004/1000, false⟩, ⟨1, 1002/1000, false⟩] =
        [(⟨0, 1004/1000, false⟩, none), (⟨1, 1002/1000, false⟩, none)] from rfl,
      trailing_cons, trailingCur_none_cons,
      if_pos (by norm_num), if_neg (by norm_num)]
    rfl
  · norm_num

/-- Claim C7 (amended): after timing correction of a start-sorted input
in which every line starts before its original end, for every pair of
consecutive lines A followed by B whose original overlap (A's original
end minus B's start) is not strictly between 0 and 5ms, A's corrected
end never exceeds B's corrected end; and unconditionally — sub-5ms
noise-zeroed overlaps included — A's corrected end exceeds B's
corrected end by strictly less than 5ms. -/
theorem corrected_end_le_next_corrected_end (lines : List LineT)
    (hs : lines.Chain' (fun p q => p.startTime ≤ q.startTime))
    (hv : ∀ l ∈ lines, l.startTime < l.originalEndTime)
    (i : ℕ) (a b : LineT)
    (ha : lines[i]? = some a) (hb : lines[i+1]? = some b)
    (ea eb : ℚ)
    (hea : (retimingNewEnds lines)[i]? = some ea)
    (heb : (retimingNewEnds lines)[i+1]? = some eb) :
    (¬ (0 < a.originalEndTime - b.startTime ∧
        a.originalEndTime - b.startTime < 5/1000) → ea ≤ eb) ∧
    ea < eb + 5/1000 := by
  have hlen2 : ¬ lines.length < 2 := by
    have := (List.getElem?_eq_some.1 hb).1; omega
  obtain ⟨rest, hr⟩ : ∃ r, lines.drop (i+2) = r := ⟨_, rfl⟩
  have hd1 : lines.drop (i+1) = b :: rest := by
    rw [drop_cons_of_getElem _ _ _ hb, hr]
  have hd0 : lines.drop i = a :: b :: rest := by
    rw [drop_cons_of_getElem _ _ _ ha, hd1]
  have hsuf : (a :: b :: rest).Chain' (fun p q => p.startTime ≤ q.startTime) := by
    rw [← hd0]; exact chain'_drop _ _ hs i
  have hvsuf : ∀ l ∈ a :: b :: rest, l.startTime < l.originalEndTime := by
    intro l hl
    refine hv l (List.drop_subset i lines ?_)
    rw [hd0]; exact hl
  have heaeq : (retimingNewEnds lines)[i]? =
      some (trailingCur (a, precursorFlag a (b :: rest))
        ((b, precursorFlag b rest) :: markPrecursor rest)) := by
    rw [retimingNewEnds_getElem lines i hlen2, hd0, markPrecursor_cons,
      markPrecursor_cons, trailing_cons]
    rfl
  have hebeq : (retimingNewEnds lines)[i+1]? =
      some (trailingCur (b, precursorFlag b rest) (markPrecursor rest)) := by
    rw [retimingNewEnds_getElem lines (i+1) hlen2, hd1, markPrecursor_cons,
      trailing_cons]
    rfl
  have hEA : ea = trailingCur (a, precursorFlag a (b :: rest))
      ((b, precursorFlag b rest) :: markPrecursor rest) :=
    Option.some.inj (hea.symm.trans heaeq)
  have hEB : eb = trailingCur (b, precursorFlag b rest) (markPrecursor rest) :=
    Option.some.inj (heb.symm.trans hebeq)
  have hgeb : b.startTime ≤ eb := by
    rw [hEB]
    have hmb : (b, precursorFlag b rest) :: markPrecursor rest =
        markPrecursor (b :: rest) := (markPrecursor_cons b rest).symm
    refine trailingCur_ge_start (markPrecursor rest)
      (b, precursorFlag b rest) ?_ ?_ ?_
    · rw [hmb]; exact markPrecursor_sorted _ hsuf.tail
    · intro z hz
      rw [hmb] at hz
      exact hvsuf z.1 (List.mem_cons_of_mem a (markPrecursor_fst_mem _ z hz))
    · intro z hz
      rw [hmb] at hz
      exact markPrecursor_flag_ge_end (b :: rest) z hz
  rcases hfa : precursorFlag a (b :: rest) with _ | e
  · -- a not handled by the precursor pass
    rw [hfa, trailingCur_none_cons] at hEA
    by_cases hov : b.startTime < a.originalEndTime
    · rw [if_pos hov] at hEA
      by_cases h5 : 5/1000 ≤ a.originalEndTime - b.startTime
      · rw [if_pos h5, trailing_cons, List.headD_cons, ← hEB] at hEA
        exact ⟨fun _ => le_of_eq hEA, by rw [hEA]; linarith⟩
      · rw [if_neg h5] at hEA
        constructor
        · intro hno
          exact absurd ⟨by linarith, by linarith [not_le.1 h5]⟩ hno
        · rw [hEA]
          have := not_le.1 h5
          linarith
    · rw [if_neg hov] at hEA
      have hle : a.originalEndTime ≤ b.startTime := not_lt.1 hov
      by_cases hg : 0 < b.startTime - a.originalEndTime ∧
          a.followedByManualGap = false
      · rw [if_pos hg] at hEA
        have hmin : min (1/2:ℚ) (b.startTime - a.originalEndTime) ≤
            b.startTime - a.originalEndTime := min_le_right _ _
        exact ⟨fun _ => by rw [hEA]; linarith, by rw [hEA]; linarith⟩
      · rw [if_neg hg] at hEA
        exact ⟨fun _ => by rw [hEA]; linarith, by rw [hEA]; linarith⟩
  · -- a handled by the precursor pass: rest must expose a third line c
    rcases rest with _ | ⟨c, rest2⟩
    · simp [precursorFlag] at hfa
    · rw [hfa, trailingCur_some] at hEA
      rw [precursorFlag] at hfa
      split_ifs at hfa with hcond
      · have he : c.startTime = e := Option.some.inj hfa
        rw [← he] at hEA
        have hsufbc : (b :: c :: rest2).Chain'
            (fun p q => p.startTime ≤ q.startTime) := hsuf.tail
        rcases hfb : precursorFlag b (c :: rest2) with _ | e2
        · -- b unhandled: its end comes from the trailing pass against c
          rw [hfb, markPrecursor_cons, trailingCur_none_cons] at hEB
          have hcb : c.startTime < b.originalEndTime := hcond.2.1
          by_cases h5 : 5/1000 ≤ b.originalEndTime - c.startTime
          · rw [if_pos hcb, if_pos h5, trailing_cons, List.headD_cons] at hEB
            have hgec : c.startTime ≤
                trailingCur (c, precursorFlag c rest2) (markPrecursor rest2) := by
              have hmc : (c, precursorFlag c rest2) :: markPrecursor rest2 =
                  markPrecursor (c :: rest2) := (markPrecursor_cons c rest2).symm
              refine trailingCur_ge_start (markPrecursor rest2)
                (c, precursorFlag c rest2) ?_ ?_ ?_
              · rw [hmc]; exact markPrecursor_sorted _ hsufbc.tail
              · intro z hz
                rw [hmc] at hz
                exact hvsuf z.1 (List.mem_cons_of_mem a
                  (List.mem_cons_of_mem b (markPrecursor_fst_mem _ z hz)))
              · intro z hz
                rw [hmc] at hz
                exact markPrecursor_flag_ge_end (c :: rest2) z hz
            rw [hEA, hEB]
            exact ⟨fun _ => hgec, by linarith⟩
          · rw [if_pos hcb, if_neg h5] at hEB
            rw [hEA, hEB]
            exact ⟨fun _ => le_of_lt hcb, by linarith⟩
        · -- b also handled: its precursor end is at least its original end
          rw [hfb, trailingCur_some] at hEB
          have hbe2 : b.originalEndTime ≤ e2 := by
            refine markPrecursor_flag_ge_end (b :: c :: rest2)
              (b, precursorFlag b (c :: rest2)) ?_ e2 hfb
            rw [markPrecursor_cons]
            exact List.mem_cons_self _ _
          rw [hEA, hEB]
          exact ⟨fun _ => by linarith [hcond.2.1], by linarith [hcond.2.1]⟩

/-- Witness for corrected_end_le_next_corrected_end on the two-line gap
fixture [0,2), [3,4): the gap branch extends line 0 to 2.5, which stays
below line 1's corrected end 4. -/
theorem corrected_end_le_next_corrected_end_witness :
    ((5/2 : ℚ) ≤ 4) ∧ ((5/2 : ℚ) < 4 + 5/1000) := by
  have h := corrected_end_le_next_corrected_end
    [⟨0, 2, false⟩, ⟨3, 4, false⟩]
    (by
      rw [List.chain'_cons]
      refine ⟨by norm_num, List.chain'_singleton _⟩)
    (by
      intro l hl
      rcases List.mem_cons.1 hl with h | h
      · subst h; norm_num
      · rcases List.mem_cons.1 h with h2 | h2
        · subst h2; norm_num
        · simp at h2)
    0 ⟨0, 2, false⟩ ⟨3, 4, false⟩ rfl rfl (5/2) 4 ?_ ?_
  · exact ⟨h.1 (by norm_num), h.2⟩
  · rw [retimingNewEnds, if_neg (by norm_num),
      show markPrecursor [⟨0, 2, false⟩, ⟨3, 4, false⟩] =
        [(⟨0, 2, false⟩, none), (⟨3, 4, false⟩, none)] from rfl,
      trailing_cons, trailingCur_none_cons,
      if_neg (by norm_num), if_pos (by norm_num)]
    norm_num
  · rw [retimingNewEnds, if_neg (by norm_num),
      show markPrecursor [⟨0, 2, false⟩, ⟨3, 4, false⟩] =
        [(⟨0, 2, false⟩, none), (⟨3, 4, false⟩, none)] from rfl,
      trailing_cons]
    rfl
